import Mathlib

/-!
# Work-stealing thread pool (`src/thread_pool/thread_pool_v3.cpp`)

A shallow embedding of `WorkStealingQueue` and `ThreadPool` from
`thread_pool_v3.cpp`, in a sequential (one call at a time) reading of the code:
every member function runs to completion under its lock before the next one starts.

Conventions of the embedding:

* a task (`FunctionWrapper`) is a value of an arbitrary type `α`; queue operations only
  move tasks, they never invoke them;
* `std::deque<FunctionWrapper> q_` is a `List α` whose head is the deque's front;
* `std::queue<FunctionWrapper> pool_queue_` is a `List α` whose head is the queue's front;
* a `bool f(FunctionWrapper& res)` member returns `Option α`: `some t` stands for
  "returned `true` and moved `t` into `res`", `none` for "returned `false`";
* the thread-local pointer `local_queue_` is `Option Nat`: `none` is the null pointer,
  `some k` points to `work_stealing_queue_[k]`;
* `std::size_t` arithmetic in `(index_ + i + 1) % size()` is done in `Nat`: both
  `index_` and `i` are below the vector's size, so the sum never reaches `2 ^ 64`.
-/

namespace ThreadPoolV3

/-! ## `class WorkStealingQueue` -/

/-- The class `WorkStealingQueue` (lines 15-56): the deque `q_`, front of the deque first. -/
structure WorkStealingQueue (α : Type) where
  q_ : List α
deriving DecidableEq, Repr

namespace WorkStealingQueue

variable {α : Type}

/-- Line 23-26: `q_.push_front(std::move(f))`. -/
def push (q : WorkStealingQueue α) (f : α) : WorkStealingQueue α :=
  ⟨f :: q.q_⟩

/-- Line 28-31: `return q_.empty()`. -/
def empty (q : WorkStealingQueue α) : Bool :=
  q.q_.isEmpty

/-- Line 33-41: `false` on an empty deque, otherwise move out `q_.front()` and `pop_front`. -/
def try_pop (q : WorkStealingQueue α) : Option α × WorkStealingQueue α :=
  match q.q_ with
  | [] => (none, q)
  | front :: rest => (some front, ⟨rest⟩)

/-- Line 43-51: `false` on an empty deque, otherwise move out `q_.back()` and `pop_back`. -/
def try_steal (q : WorkStealingQueue α) : Option α × WorkStealingQueue α :=
  match q.q_.getLast? with
  | none => (none, q)
  | some back => (some back, ⟨q.q_.dropLast⟩)

/-- Driver: `push` the tasks of `ts` one after the other, first element first. -/
def pushAll (q : WorkStealingQueue α) (ts : List α) : WorkStealingQueue α :=
  ts.foldl push q

/-- Driver: call `try_pop` `n` times, collecting the result of every call in call order. -/
def popN : Nat → WorkStealingQueue α → List (Option α) × WorkStealingQueue α
  | 0, q => ([], q)
  | n + 1, q =>
    let r := q.try_pop
    let rs := popN n r.2
    (r.1 :: rs.1, rs.2)

/-- Driver: call `try_steal` `n` times, collecting the result of every call in call order. -/
def stealN : Nat → WorkStealingQueue α → List (Option α) × WorkStealingQueue α
  | 0, q => ([], q)
  | n + 1, q =>
    let r := q.try_steal
    let rs := stealN n r.2
    (r.1 :: rs.1, rs.2)

end WorkStealingQueue

/-! ## `class ThreadPool` -/

/-- The two `static thread_local` members of `ThreadPool` (lines 152-157), as one thread sees
them. -/
structure ThreadLocal where
  local_queue_ : Option Nat
  index_ : Nat
deriving DecidableEq, Repr

namespace ThreadLocal

/-- A thread that never ran `worker_thread`: both thread-locals are zero-initialised, so
`local_queue_` is null. -/
def nonWorker : ThreadLocal := ⟨none, 0⟩

/-- Lines 125-126: `index_ = index; local_queue_ = work_stealing_queue_[index_].get()`. -/
def worker (index : Nat) : ThreadLocal := ⟨some index, index⟩

end ThreadLocal

/-- The data members of `ThreadPool` that hold tasks or steer the workers (lines 147-149). -/
structure ThreadPool (α : Type) where
  done_ : Bool
  pool_queue_ : List α
  work_stealing_queue_ : List (WorkStealingQueue α)
deriving DecidableEq, Repr

namespace ThreadPool

variable {α : Type}

/-- Lines 60-66 with `n = hardware_concurrency()`: `n` empty local queues, an empty pool queue,
`done_ = false`. -/
def new (n : Nat) : ThreadPool α :=
  { done_ := false, pool_queue_ := [], work_stealing_queue_ := List.replicate n ⟨[]⟩ }

/-- Line 79, the first statement of the destructor: `done_ = true`. -/
def shutdown (p : ThreadPool α) : ThreadPool α :=
  { p with done_ := true }

/-- Lines 93-98 of `submit`, for the already built `task`: push to `*local_queue_` when the
pointer is set, to the back of `pool_queue_` otherwise. -/
def submit (p : ThreadPool α) (tl : ThreadLocal) (task : α) : ThreadPool α :=
  match tl.local_queue_ with
  | some k =>
    match p.work_stealing_queue_[k]? with
    | some q => { p with work_stealing_queue_ := p.work_stealing_queue_.set k (q.push task) }
    | none => p  -- a dangling `local_queue_`; never the case for `ThreadLocal.worker k`, `k < size`
  | none => { p with pool_queue_ := p.pool_queue_ ++ [task] }

/-- Line 104: `local_queue_ && local_queue_->try_pop(task)`. -/
def pop_task_from_local_queue (p : ThreadPool α) (tl : ThreadLocal) : Option α × ThreadPool α :=
  match tl.local_queue_ with
  | none => (none, p)
  | some k =>
    match p.work_stealing_queue_[k]? with
    | none => (none, p)
    | some q =>
      let r := q.try_pop
      (r.1, { p with work_stealing_queue_ := p.work_stealing_queue_.set k r.2 })

/-- Lines 106-112: `false` on an empty `pool_queue_`, otherwise move out `front()` and `pop()`. -/
def pop_task_from_pool_queue (p : ThreadPool α) : Option α × ThreadPool α :=
  match p.pool_queue_ with
  | [] => (none, p)
  | front :: rest => (some front, { p with pool_queue_ := rest })

/-- The `for` loop of lines 115-120 with loop counter `i` and `remaining` iterations to go
(`remaining = size() - i`). -/
def steal_loop (index_ : Nat) :
    (remaining : Nat) → (i : Nat) → ThreadPool α → Option α × ThreadPool α
  | 0, _, p => (none, p)
  | remaining + 1, i, p =>
    let index := (index_ + i + 1) % p.work_stealing_queue_.length
    match p.work_stealing_queue_[index]? with
    | none => (none, p)  -- out of range; cannot happen, `index < size()`
    | some q =>
      let r := q.try_steal
      let p1 := { p with work_stealing_queue_ := p.work_stealing_queue_.set index r.2 }
      match r.1 with
      | some t => (some t, p1)
      | none => steal_loop index_ remaining (i + 1) p1

/-- Lines 114-122: probe `size()` queues, starting right after `index_`; `false` after the
loop. -/
def pop_task_from_other_thread_queue (p : ThreadPool α) (tl : ThreadLocal) :
    Option α × ThreadPool α :=
  steal_loop tl.index_ p.work_stealing_queue_.length 0 p

/-- Lines 129-140, one pass through the body of the `while` loop. The first component is the
task on which `task()` is called (line 131 or 137), `none` when the worker reaches
`cv_.wait(l)` instead; the second is the pool at that point. -/
def worker_iteration (p : ThreadPool α) (tl : ThreadLocal) : Option α × ThreadPool α :=
  match pop_task_from_local_queue p tl with
  | (some t, p1) => (some t, p1)
  | (none, p1) =>
    match pop_task_from_other_thread_queue p1 tl with
    | (some t, p2) => (some t, p2)
    | (none, p2) => pop_task_from_pool_queue p2

/-- What `worker_thread` has done when it is observed. -/
structure WorkerRun (α : Type) where
  /-- The `while` loop was left, `worker_thread` returned. -/
  exited : Bool
  /-- The tasks on which `task()` was called, in call order. -/
  executed : List α
  pool : ThreadPool α
deriving DecidableEq, Repr

/-- The `while (!done_)` loop of lines 128-141, observed for at most `fuel` evaluations of the
loop condition; `executed` accumulates the tasks that were run. -/
def worker_loop (tl : ThreadLocal) : (fuel : Nat) → ThreadPool α → List α → WorkerRun α
  | 0, p, executed => ⟨false, executed, p⟩
  | fuel + 1, p, executed =>
    if p.done_ then ⟨true, executed, p⟩
    else
      match worker_iteration p tl with
      | (some t, p1) => worker_loop tl fuel p1 (executed ++ [t])
      | (none, p1) => worker_loop tl fuel p1 executed

/-- Lines 124-142: bind the thread-locals, then loop. -/
def worker_thread (fuel : Nat) (index : Nat) (p : ThreadPool α) : WorkerRun α :=
  worker_loop (ThreadLocal.worker index) fuel p []

/-- Driver: `submit` the tasks of `ts` one after the other from the same thread. -/
def submitAll (p : ThreadPool α) (tl : ThreadLocal) (ts : List α) : ThreadPool α :=
  ts.foldl (fun acc t => acc.submit tl t) p

/-- Driver: call `pop_task_from_pool_queue` `n` times, collecting the results in call order. -/
def popPoolN : Nat → ThreadPool α → List (Option α) × ThreadPool α
  | 0, p => ([], p)
  | n + 1, p =>
    let r := p.pop_task_from_pool_queue
    let rs := popPoolN n r.2
    (r.1 :: rs.1, rs.2)

end ThreadPool

/-! ## The sequential step model of a running pool

Tasks are told apart by their submission number: every call of `submit` builds a new
`std::packaged_task`, the `n`-th call (counting from 0) builds task `n`. A worker holds a task
in the local variable `task` of line 129 from the successful pop until the call `task()`. -/

/-- A pool together with what its workers hold and have run. -/
structure PoolRun where
  pool : ThreadPool Nat
  /-- Entry `i` is worker `i`'s local variable `task`: `some t` between a successful pop
  (line 130 or 136) and the call `task()` (line 131 or 137), `none` otherwise. -/
  task : List (Option Nat)
  /-- The tasks on which `task()` was called, oldest first. -/
  executed : List Nat
  /-- The number of calls of `submit` so far. -/
  submitted : Nat
deriving DecidableEq, Repr

/-- The steps of the model. `caller = none` is a thread that is not a worker. -/
inductive Step where
  | submit (caller : Option Nat)
  | owner_pop (i : Nat)
  | steal (i : Nat)
  | global_pop (i : Nat)
  | execute (i : Nat)
deriving DecidableEq, Repr

/-- The contents of all local queues, queue 0 first. -/
def localTasks {α : Type} : List (WorkStealingQueue α) → List α
  | [] => []
  | q :: qs => q.q_ ++ localTasks qs

/-- The tasks held in the workers' `task` variables. -/
def heldTasks {α : Type} : List (Option α) → List α
  | [] => []
  | none :: l => heldTasks l
  | some t :: l => t :: heldTasks l

namespace PoolRun

/-- A freshly constructed pool of `n` workers: nothing queued, held, run or submitted. -/
def init (n : Nat) : PoolRun :=
  { pool := ThreadPool.new n, task := List.replicate n none, executed := [], submitted := 0 }

/-- Every task that sits in the pool queue or in a local queue, one entry per position. -/
def queued (s : PoolRun) : List Nat :=
  s.pool.pool_queue_ ++ localTasks s.pool.work_stealing_queue_

/-- Worker `i` stores the outcome `r` of a pop into its variable `task`. The step is taken only
by an existing worker that holds no task; otherwise nothing happens. -/
def fetch (s : PoolRun) (i : Nat) (r : Option Nat × ThreadPool Nat) : PoolRun :=
  match s.task[i]? with
  | some none => { s with pool := r.2, task := s.task.set i r.1 }
  | _ => s

/-- One step of the model, built from the member functions of `ThreadPool`. -/
def step (s : PoolRun) : Step → PoolRun
  | .submit none =>
    { s with pool := s.pool.submit ThreadLocal.nonWorker s.submitted,
             submitted := s.submitted + 1 }
  | .submit (some i) =>
    if i < s.pool.work_stealing_queue_.length then
      { s with pool := s.pool.submit (ThreadLocal.worker i) s.submitted,
               submitted := s.submitted + 1 }
    else s
  | .owner_pop i => s.fetch i (s.pool.pop_task_from_local_queue (ThreadLocal.worker i))
  | .steal i => s.fetch i (s.pool.pop_task_from_other_thread_queue (ThreadLocal.worker i))
  | .global_pop i => s.fetch i s.pool.pop_task_from_pool_queue
  | .execute i =>
    match s.task[i]? with
    | some (some t) => { s with task := s.task.set i none, executed := s.executed ++ [t] }
    | _ => s

/-- The state reached from a fresh pool of `n` workers by the given steps. -/
def run (n : Nat) (steps : List Step) : PoolRun :=
  steps.foldl step (init n)

end PoolRun

/-- Conservation: over queues, workers' hands and the run log together, every submitted task
occurs exactly once and no other task occurs at all. -/
def Conserved (s : PoolRun) : Prop :=
  ∀ t : Nat, s.queued.count t + (heldTasks s.task).count t + s.executed.count t
    = if t < s.submitted then 1 else 0

/-! ## Tasks with a result channel

`submit` (lines 90-92) wraps the bound call in a `std::packaged_task<RT()>` and hands the
caller the `std::future` of that task. The shared state that links the two is an entry of a
list: unset (`none`), or holding the value or the exception of the call. -/

/-- Modelled from the spec: `FunctionWrapper` (`function_wrapper.hpp` is not among the sources),
"a type-erased, move-only unit of deferred work plus an associated result channel", here
wrapping the `std::packaged_task<RT()>` of line 91. `body` is the bound call `f(args...)`, which
returns a value of type `ρ` or throws an `ε`; `state` is the position of the shared state the
task writes to. -/
structure PackagedTask (ε ρ : Type) where
  body : Unit → Except ε ρ
  state : Nat

/-- Modelled from the spec: the call `task()` of lines 131 and 137, "captures either the return
value or the failure into the associated result channel": the outcome of the bound call is
stored in the task's shared state, nothing is thrown into the caller. -/
def PackagedTask.invoke {ε ρ : Type} (t : PackagedTask ε ρ)
    (shared : List (Option (Except ε ρ))) : List (Option (Except ε ρ)) :=
  shared.set t.state (some (t.body ()))

/-- A pool of packaged tasks together with the shared states of all futures handed out. -/
structure FuturePool (ε ρ : Type) where
  pool : ThreadPool (PackagedTask ε ρ)
  shared : List (Option (Except ε ρ))

namespace FuturePool

variable {ε ρ α : Type}

/-- A freshly constructed pool of `n` workers; no future was handed out yet. -/
def new (n : Nat) : FuturePool ε ρ :=
  ⟨ThreadPool.new n, []⟩

/-- Lines 89-100, the whole of `submit(f, x)`: build the task around the bound call, take its
future, queue the task. The result is the future (the position of its shared state) and the
new pool. -/
def submit (s : FuturePool ε ρ) (tl : ThreadLocal) (f : α → Except ε ρ) (x : α) :
    Nat × FuturePool ε ρ :=
  (s.shared.length,
    ⟨s.pool.submit tl ⟨fun _ => f x, s.shared.length⟩, s.shared ++ [none]⟩)

/-- The value `std::future::get` yields: `none` as long as the shared state is unset (the call
would block), otherwise the stored value or exception. -/
def get (s : FuturePool ε ρ) (future : Nat) : Option (Except ε ρ) :=
  (s.shared[future]?).join

/-- Lines 129-140 with the call `task()` carried out. -/
def worker_iteration (s : FuturePool ε ρ) (tl : ThreadLocal) : FuturePool ε ρ :=
  match s.pool.worker_iteration tl with
  | (some t, p1) => ⟨p1, t.invoke s.shared⟩
  | (none, p1) => ⟨p1, s.shared⟩

/-- The `while (!done_)` loop of lines 128-141 with the tasks carried out, observed for at most
`fuel` evaluations of the loop condition. -/
def worker_loop (tl : ThreadLocal) : (fuel : Nat) → FuturePool ε ρ → FuturePool ε ρ
  | 0, s => s
  | fuel + 1, s => if s.pool.done_ then s else worker_loop tl fuel (s.worker_iteration tl)

/-- Driver, the loop of lines 164-167 of `main`: `submit(f, x)` for every `x` of `xs` in order
from a thread that is not a worker, collecting the futures in submission order. -/
def submitMany (s : FuturePool ε ρ) (f : α → Except ε ρ) :
    List α → List Nat × FuturePool ε ρ
  | [] => ([], s)
  | x :: xs =>
    let r := s.submit ThreadLocal.nonWorker f x
    let rs := submitMany r.2 f xs
    (r.1 :: rs.1, rs.2)

end FuturePool

/-- The tasks that `submitMany` queues for the arguments `xs` when `k` futures were handed out
before: the `j`-th of them writes to shared state `k + j`. -/
def tasksFrom {ε ρ α : Type} (f : α → Except ε ρ) : Nat → List α → List (PackagedTask ε ρ)
  | _, [] => []
  | k, x :: xs => ⟨fun _ => f x, k⟩ :: tasksFrom f (k + 1) xs

/-! ## Helper lemmas on `WorkStealingQueue` -/

section QueueLemmas

variable {α : Type}

open WorkStealingQueue

theorem try_pop_push (q : WorkStealingQueue α) (t : α) :
    (q.push t).try_pop = (some t, q) := by
  cases q
  rfl

theorem pushAll_q_ (q : WorkStealingQueue α) (ts : List α) :
    (pushAll q ts).q_ = ts.reverse ++ q.q_ := by
  induction ts generalizing q with
  | nil => simp [pushAll]
  | cons t ts ih =>
    have h := ih (q.push t)
    simp only [pushAll, List.foldl_cons] at h ⊢
    rw [h]
    simp [push]

theorem popN_list (l : List α) :
    popN l.length (⟨l⟩ : WorkStealingQueue α) = (l.map some, ⟨[]⟩) := by
  induction l with
  | nil => rfl
  | cons a l ih =>
    simp only [List.length_cons, popN, try_pop, ih, List.map_cons]

theorem try_steal_nil : (⟨[]⟩ : WorkStealingQueue α).try_steal = (none, ⟨[]⟩) := rfl

theorem try_steal_concat (rest : List α) (t : α) :
    (⟨rest ++ [t]⟩ : WorkStealingQueue α).try_steal = (some t, ⟨rest⟩) := by
  simp [try_steal]

theorem try_steal_fail (q : WorkStealingQueue α) (h : q.q_ = []) :
    q.try_steal = (none, q) := by
  cases q with
  | mk l =>
    simp only at h
    subst h
    rfl

theorem stealN_reverse (l : List α) :
    stealN l.length (⟨l.reverse⟩ : WorkStealingQueue α) = (l.map some, ⟨[]⟩) := by
  induction l with
  | nil => rfl
  | cons a l ih =>
    simp only [List.length_cons, stealN, List.reverse_cons, try_steal_concat, ih, List.map_cons]

end QueueLemmas

/-! ## Claims on `WorkStealingQueue` -/

section QueueClaims

open WorkStealingQueue

/-- C1: owner pop is LIFO. For every queue `q` and task `t`, `push t` followed by `try_pop`
returns `true` with `t` and leaves exactly `q`; pushing `t1..tn` onto an empty queue and calling
`try_pop` `n` times yields `tn, ..., t1`, every call returning `true`, and ends with the empty
queue. -/
theorem C1_owner_pop_lifo (α : Type) :
    (∀ (q : WorkStealingQueue α) (t : α), (q.push t).try_pop = (some t, q)) ∧
    (∀ ts : List α,
      popN ts.length (pushAll (⟨[]⟩ : WorkStealingQueue α) ts)
        = (ts.reverse.map some, ⟨[]⟩)) := by
  refine ⟨try_pop_push, fun ts => ?_⟩
  have h : pushAll (⟨[]⟩ : WorkStealingQueue α) ts = ⟨ts.reverse⟩ := by
    have := pushAll_q_ (⟨[]⟩ : WorkStealingQueue α) ts
    cases hq : pushAll (⟨[]⟩ : WorkStealingQueue α) ts with
    | mk l => rw [hq] at this; simpa using this
  rw [h]
  simpa using popN_list ts.reverse

/-- C2: steal is FIFO. Pushing `t1..tn` onto an empty queue and calling `try_steal` `n` times
returns `true` each time and yields `t1, ..., tn` in push order, ending with the empty queue;
a `try_steal` on a queue whose least recently pushed task is `t` (deque contents `rest ++ [t]`)
returns `t` and leaves `rest` in order; a later `push` does not change which task is stolen;
and `try_steal` on an empty queue returns `false` and changes nothing. -/
theorem C2_steal_fifo (α : Type) :
    (∀ ts : List α,
      stealN ts.length (pushAll (⟨[]⟩ : WorkStealingQueue α) ts) = (ts.map some, ⟨[]⟩)) ∧
    (∀ (rest : List α) (t : α),
      (⟨rest ++ [t]⟩ : WorkStealingQueue α).try_steal = (some t, ⟨rest⟩)) ∧
    (∀ (rest : List α) (t new : α),
      ((⟨rest ++ [t]⟩ : WorkStealingQueue α).push new).try_steal
        = (some t, (⟨rest⟩ : WorkStealingQueue α).push new)) ∧
    (⟨[]⟩ : WorkStealingQueue α).try_steal = (none, ⟨[]⟩) := by
  refine ⟨fun ts => ?_, try_steal_concat, ?_, try_steal_nil⟩
  · have h : pushAll (⟨[]⟩ : WorkStealingQueue α) ts = ⟨ts.reverse⟩ := by
      have := pushAll_q_ (⟨[]⟩ : WorkStealingQueue α) ts
      cases hq : pushAll (⟨[]⟩ : WorkStealingQueue α) ts with
      | mk l => rw [hq] at this; simpa using this
    rw [h]
    exact stealN_reverse ts
  · intro rest t new
    exact try_steal_concat (new :: rest) t

end QueueClaims

/-! ## Helper lemmas on `ThreadPool` -/

section PoolLemmas

variable {α : Type}

open ThreadPool

theorem set_self_of_getElem? {β : Type} (l : List β) (k : Nat) (x : β) (h : l[k]? = some x) :
    l.set k x = l := by
  induction l generalizing k with
  | nil => rfl
  | cons a l ih =>
    cases k with
    | zero =>
      simp only [List.getElem?_cons_zero, Option.some.injEq] at h
      simp [h]
    | succ k =>
      simp only [List.getElem?_cons_succ] at h
      simp [ih k h]

theorem try_pop_fail (q : WorkStealingQueue α) (h : q.q_ = []) : q.try_pop = (none, q) := by
  cases q with
  | mk l =>
    simp only at h
    subst h
    rfl

theorem submitAll_nonWorker (p : ThreadPool α) (ts : List α) :
    p.submitAll ThreadLocal.nonWorker ts = { p with pool_queue_ := p.pool_queue_ ++ ts } := by
  induction ts generalizing p with
  | nil => simp [submitAll]
  | cons t ts ih =>
    have h := ih (p.submit ThreadLocal.nonWorker t)
    simp only [submitAll, List.foldl_cons] at h ⊢
    rw [h]
    simp [submit, ThreadLocal.nonWorker]

theorem popPoolN_all (p : ThreadPool α) (l : List α) :
    popPoolN l.length { p with pool_queue_ := l } = (l.map some, { p with pool_queue_ := [] }) := by
  induction l with
  | nil => rfl
  | cons a l ih =>
    simp only [List.length_cons, popPoolN, pop_task_from_pool_queue, ih, List.map_cons]

theorem pop_local_of_all_empty (p : ThreadPool α) (tl : ThreadLocal)
    (hl : ∀ q ∈ p.work_stealing_queue_, q.q_ = []) :
    p.pop_task_from_local_queue tl = (none, p) := by
  unfold pop_task_from_local_queue
  cases tl.local_queue_ with
  | none => rfl
  | some k =>
    simp only
    cases hk : p.work_stealing_queue_[k]? with
    | none => rfl
    | some q =>
      have hq : q.q_ = [] := hl q (List.getElem?_mem hk)
      simp only [try_pop_fail q hq, set_self_of_getElem? _ k q hk]

theorem steal_loop_of_all_empty (index_ : Nat) (remaining i : Nat) (p : ThreadPool α)
    (hl : ∀ q ∈ p.work_stealing_queue_, q.q_ = []) :
    steal_loop index_ remaining i p = (none, p) := by
  induction remaining generalizing i with
  | zero => rfl
  | succ n ih =>
    unfold steal_loop
    simp only
    cases hk : p.work_stealing_queue_[(index_ + i + 1) % p.work_stealing_queue_.length]? with
    | none => rfl
    | some q =>
      have hq : q.q_ = [] := hl q (List.getElem?_mem hk)
      simp only [try_steal_fail q hq, set_self_of_getElem? _ _ q hk]
      exact ih (i + 1)

theorem worker_iteration_of_all_empty (p : ThreadPool α) (tl : ThreadLocal)
    (hl : ∀ q ∈ p.work_stealing_queue_, q.q_ = []) :
    p.worker_iteration tl = p.pop_task_from_pool_queue := by
  unfold worker_iteration
  rw [pop_local_of_all_empty p tl hl]
  simp only [pop_task_from_other_thread_queue, steal_loop_of_all_empty _ _ _ p hl]

theorem worker_loop_drains_pool_queue (tl : ThreadLocal) (qs : List (WorkStealingQueue α))
    (l executed : List α) (hl : ∀ q ∈ qs, q.q_ = []) :
    worker_loop tl l.length (⟨false, l, qs⟩ : ThreadPool α) executed
      = ⟨false, executed ++ l, ⟨false, [], qs⟩⟩ := by
  induction l generalizing executed with
  | nil => simp [worker_loop]
  | cons a l ih =>
    have hit : (⟨false, a :: l, qs⟩ : ThreadPool α).worker_iteration tl
        = (some a, ⟨false, l, qs⟩) := by
      rw [worker_iteration_of_all_empty _ tl hl]
      rfl
    simp only [List.length_cons, worker_loop, hit]
    rw [ih (executed ++ [a])]
    simp

theorem steal_loop_hit (index_ remaining i : Nat) (p : ThreadPool α) (rest : List α) (t : α)
    (h : p.work_stealing_queue_[(index_ + i + 1) % p.work_stealing_queue_.length]?
      = some ⟨rest ++ [t]⟩) :
    steal_loop index_ (remaining + 1) i p
      = (some t, ⟨p.done_, p.pool_queue_,
          p.work_stealing_queue_.set ((index_ + i + 1) % p.work_stealing_queue_.length)
            ⟨rest⟩⟩) := by
  unfold steal_loop
  simp only [h, try_steal_concat]

theorem steal_loop_skip (index_ remaining i : Nat) (p : ThreadPool α)
    (h : p.work_stealing_queue_[(index_ + i + 1) % p.work_stealing_queue_.length]?
      = some ⟨[]⟩) :
    steal_loop index_ (remaining + 1) i p = steal_loop index_ remaining (i + 1) p := by
  conv => lhs; unfold steal_loop
  simp only [h, try_steal_nil, set_self_of_getElem? _ _ _ h]

/-- The loop passes over `d` empty queues and steals from the next one. -/
theorem steal_loop_first (index_ : Nat) (p : ThreadPool α) (rest : List α) (t : α)
    (d remaining i : Nat) (hd : d < remaining)
    (hempty : ∀ m, i ≤ m → m < i + d →
      p.work_stealing_queue_[(index_ + m + 1) % p.work_stealing_queue_.length]? = some ⟨[]⟩)
    (hfull : p.work_stealing_queue_[(index_ + (i + d) + 1) % p.work_stealing_queue_.length]?
      = some ⟨rest ++ [t]⟩) :
    steal_loop index_ remaining i p
      = (some t, ⟨p.done_, p.pool_queue_,
          p.work_stealing_queue_.set ((index_ + (i + d) + 1) % p.work_stealing_queue_.length)
            ⟨rest⟩⟩) := by
  induction d generalizing remaining i with
  | zero =>
    obtain ⟨r, rfl⟩ : ∃ r, remaining = r + 1 := ⟨remaining - 1, by omega⟩
    exact steal_loop_hit index_ r i p rest t hfull
  | succ d ih =>
    obtain ⟨r, rfl⟩ : ∃ r, remaining = r + 1 := ⟨remaining - 1, by omega⟩
    rw [steal_loop_skip index_ r i p (hempty i (Nat.le_refl i) (by omega))]
    have h := ih r (i + 1) (by omega) (fun m h1 h2 => hempty m (by omega) (by omega))
      (by rw [show i + 1 + d = i + (d + 1) by omega]; exact hfull)
    rw [h, show i + 1 + d = i + (d + 1) by omega]

/-- Some queue other than `i` is non-empty: the first such queue in the cyclic order
`i + 1, i + 2, ...` is the one `pop_task_from_other_thread_queue` steals from. -/
theorem steal_first_nonempty (p : ThreadPool α) (i : Nat)
    (hi : i < p.work_stealing_queue_.length)
    (hne : ∃ (j : Nat) (q : WorkStealingQueue α),
      j ≠ i ∧ p.work_stealing_queue_[j]? = some q ∧ q.q_ ≠ []) :
    ∃ (k : Nat) (rest : List α) (t : α),
      1 ≤ k ∧ k < p.work_stealing_queue_.length ∧
      (i + k) % p.work_stealing_queue_.length ≠ i ∧
      (∀ m, 1 ≤ m → m < k →
        p.work_stealing_queue_[(i + m) % p.work_stealing_queue_.length]? = some ⟨[]⟩) ∧
      p.work_stealing_queue_[(i + k) % p.work_stealing_queue_.length]? = some ⟨rest ++ [t]⟩ ∧
      p.pop_task_from_other_thread_queue (ThreadLocal.worker i)
        = (some t, ⟨p.done_, p.pool_queue_,
            p.work_stealing_queue_.set ((i + k) % p.work_stealing_queue_.length) ⟨rest⟩⟩) := by
  obtain ⟨j, q, hji, hjq, hq⟩ := hne
  generalize hNdef : p.work_stealing_queue_.length = N at *
  have hjN : j < N := by
    rw [← hNdef]
    by_contra hcon
    rw [List.getElem?_eq_none (by omega)] at hjq
    exact Option.noConfusion hjq
  -- an offset that reaches `j`
  have hex : ∃ c, c + 1 < N ∧ ∃ q : WorkStealingQueue α,
      p.work_stealing_queue_[(i + (c + 1)) % N]? = some q ∧ q.q_ ≠ [] := by
    rcases Nat.lt_or_gt_of_ne hji with hlt | hgt
    · refine ⟨j + N - i - 1, by omega, q, ?_, hq⟩
      have : (i + (j + N - i - 1 + 1)) % N = j := by
        rw [show i + (j + N - i - 1 + 1) = j + N by omega, Nat.add_mod_right,
          Nat.mod_eq_of_lt hjN]
      rw [this]; exact hjq
    · refine ⟨j - i - 1, by omega, q, ?_, hq⟩
      have : (i + (j - i - 1 + 1)) % N = j := by
        rw [show i + (j - i - 1 + 1) = j by omega, Nat.mod_eq_of_lt hjN]
      rw [this]; exact hjq
  classical
  have hc := Nat.find_spec hex
  have hmin := fun m (hm : m < Nat.find hex) => Nat.find_min hex hm
  generalize Nat.find hex = c at hc hmin
  obtain ⟨hcN, qc, hqc, hqcne⟩ := hc
  obtain ⟨rest, t, hrt⟩ : ∃ rest t, qc = ⟨rest ++ [t]⟩ := by
    cases qc with
    | mk l =>
      rcases List.eq_nil_or_concat l with h | ⟨rest, t, h⟩
      · exact absurd h hqcne
      · exact ⟨rest, t, by rw [h, List.concat_eq_append]⟩
  subst hrt
  have hempty : ∀ m, 1 ≤ m → m < c + 1 →
      p.work_stealing_queue_[(i + m) % N]? = some ⟨[]⟩ := by
    intro m hm1 hmc
    obtain ⟨m0, rfl⟩ : ∃ m0, m = m0 + 1 := ⟨m - 1, by omega⟩
    have hlt : (i + (m0 + 1)) % N < p.work_stealing_queue_.length := by
      rw [hNdef]; exact Nat.mod_lt _ (by omega)
    have hnot := hmin m0 (by omega)
    rw [List.getElem?_eq_getElem hlt]
    congr 1
    by_contra hcon
    apply hnot
    refine ⟨by omega, _, List.getElem?_eq_getElem hlt, ?_⟩
    intro hnil
    apply hcon
    cases hq0 : p.work_stealing_queue_[(i + (m0 + 1)) % N] with
    | mk l =>
      rw [hq0] at hnil
      simp only at hnil
      rw [hnil]
  refine ⟨c + 1, rest, t, by omega, hcN, ?_, hempty, hqc, ?_⟩
  · intro heq
    rcases Nat.lt_or_ge (i + (c + 1)) N with h | h
    · rw [Nat.mod_eq_of_lt h] at heq; omega
    · rw [Nat.mod_eq_sub_mod h, Nat.mod_eq_of_lt (by omega)] at heq; omega
  · unfold pop_task_from_other_thread_queue
    simp only [ThreadLocal.worker, hNdef]
    have h := steal_loop_first i p rest t c N 0 (by omega)
      (fun m _ hm2 => by
        rw [hNdef, Nat.add_assoc]
        exact hempty (m + 1) (by omega) (by omega))
      (by rw [hNdef, Nat.zero_add, Nat.add_assoc]; exact hqc)
    rw [h, hNdef, Nat.zero_add, Nat.add_assoc]

theorem pop_local_hit (p : ThreadPool α) (i : Nat) (t : α) (rest : List α)
    (h : p.work_stealing_queue_[i]? = some ⟨t :: rest⟩) :
    p.pop_task_from_local_queue (ThreadLocal.worker i)
      = (some t, ⟨p.done_, p.pool_queue_, p.work_stealing_queue_.set i ⟨rest⟩⟩) := by
  simp only [pop_task_from_local_queue, ThreadLocal.worker, h, WorkStealingQueue.try_pop]

theorem pop_local_miss (p : ThreadPool α) (i : Nat)
    (h : p.work_stealing_queue_[i]? = some ⟨[]⟩) :
    p.pop_task_from_local_queue (ThreadLocal.worker i) = (none, p) := by
  simp only [pop_task_from_local_queue, ThreadLocal.worker, h, WorkStealingQueue.try_pop,
    set_self_of_getElem? _ _ _ h]

theorem worker_thread_one (p : ThreadPool α) (i : Nat) (hd : p.done_ = false) :
    worker_thread 1 i p
      = ⟨false, (p.worker_iteration (ThreadLocal.worker i)).1.toList,
          (p.worker_iteration (ThreadLocal.worker i)).2⟩ := by
  unfold worker_thread
  simp only [worker_loop, hd]
  rcases hit : p.worker_iteration (ThreadLocal.worker i) with ⟨_ | t, p1⟩ <;> simp

theorem worker_iteration_local (p : ThreadPool α) (i : Nat) (t : α) (rest : List α)
    (h : p.work_stealing_queue_[i]? = some ⟨t :: rest⟩) :
    p.worker_iteration (ThreadLocal.worker i)
      = (some t, ⟨p.done_, p.pool_queue_, p.work_stealing_queue_.set i ⟨rest⟩⟩) := by
  unfold worker_iteration
  rw [pop_local_hit p i t rest h]

theorem worker_iteration_steal (p : ThreadPool α) (i : Nat)
    (hi : i < p.work_stealing_queue_.length)
    (h : p.work_stealing_queue_[i]? = some ⟨[]⟩)
    (hne : ∃ (j : Nat) (q : WorkStealingQueue α),
      p.work_stealing_queue_[j]? = some q ∧ q.q_ ≠ []) :
    ∃ (j : Nat) (rest : List α) (t : α),
      j ≠ i ∧ p.work_stealing_queue_[j]? = some ⟨rest ++ [t]⟩ ∧
      p.worker_iteration (ThreadLocal.worker i)
        = (some t, ⟨p.done_, p.pool_queue_, p.work_stealing_queue_.set j ⟨rest⟩⟩) := by
  obtain ⟨j, q, hjq, hq⟩ := hne
  have hji : j ≠ i := by
    rintro rfl
    rw [h] at hjq
    cases hjq
    exact hq rfl
  obtain ⟨k, rest, t, _, _, hki, _, hfull, hpop⟩ :=
    steal_first_nonempty p i hi ⟨j, q, hji, hjq, hq⟩
  refine ⟨_, rest, t, hki, hfull, ?_⟩
  unfold worker_iteration
  rw [pop_local_miss p i h]
  simp only [hpop]

theorem queue_eq_nil_or_cons (q : WorkStealingQueue α) :
    q = ⟨[]⟩ ∨ ∃ t rest, q = ⟨t :: rest⟩ := by
  rcases q with ⟨_ | ⟨t, rest⟩⟩
  · exact Or.inl rfl
  · exact Or.inr ⟨t, rest, rfl⟩

/-- A pass of the loop that changes the pool queue started with every local queue empty. -/
theorem worker_iteration_pool_only_if (p : ThreadPool α) (i : Nat)
    (hi : i < p.work_stealing_queue_.length)
    (hch : (p.worker_iteration (ThreadLocal.worker i)).2.pool_queue_ ≠ p.pool_queue_) :
    ∀ q ∈ p.work_stealing_queue_, q.q_ = [] := by
  by_contra hcon
  push_neg at hcon
  obtain ⟨q, hqmem, hq⟩ := hcon
  obtain ⟨j, hjq⟩ := List.mem_iff_getElem?.mp hqmem
  rcases queue_eq_nil_or_cons (p.work_stealing_queue_.get ⟨i, hi⟩) with h0 | ⟨t, rest, h1⟩
  · have hi0 : p.work_stealing_queue_[i]? = some ⟨[]⟩ := by
      rw [List.getElem?_eq_getElem hi]
      exact congrArg some h0
    obtain ⟨_, _, _, _, _, hw⟩ := worker_iteration_steal p i hi hi0 ⟨j, q, hjq, hq⟩
    rw [hw] at hch
    exact hch rfl
  · have hi1 : p.work_stealing_queue_[i]? = some ⟨t :: rest⟩ := by
      rw [List.getElem?_eq_getElem hi]
      exact congrArg some h1
    rw [worker_iteration_local p i t rest hi1] at hch
    exact hch rfl

end PoolLemmas

/-! ## Conservation of tasks in the step model -/

section StepLemmas

open ThreadPool

theorem localTasks_set_count (l : List (WorkStealingQueue Nat)) (k : Nat)
    (q q1 : WorkStealingQueue Nat) (t : Nat) (h : l[k]? = some q) :
    (localTasks (l.set k q1)).count t + q.q_.count t
      = (localTasks l).count t + q1.q_.count t := by
  induction l generalizing k with
  | nil => simp at h
  | cons a l ih =>
    cases k with
    | zero =>
      simp only [List.getElem?_cons_zero, Option.some.injEq] at h
      subst h
      simp only [List.set_cons_zero, localTasks, List.count_append]
      omega
    | succ k =>
      simp only [List.getElem?_cons_succ] at h
      have := ih k h
      simp only [List.set_cons_succ, localTasks, List.count_append]
      omega

theorem heldTasks_set_count (l : List (Option Nat)) (i : Nat) (o o1 : Option Nat) (t : Nat)
    (h : l[i]? = some o) :
    (heldTasks (l.set i o1)).count t + o.toList.count t
      = (heldTasks l).count t + o1.toList.count t := by
  induction l generalizing i with
  | nil => simp at h
  | cons a l ih =>
    cases i with
    | zero =>
      simp only [List.getElem?_cons_zero, Option.some.injEq] at h
      subst h
      cases a <;> cases o1 <;>
        simp only [List.set_cons_zero, heldTasks, Option.toList, List.count_cons,
          List.count_nil] <;> omega
    | succ i =>
      simp only [List.getElem?_cons_succ] at h
      have := ih i h
      cases a <;>
        simp only [List.set_cons_succ, heldTasks, List.count_cons] <;> omega

theorem try_pop_count (q : WorkStealingQueue Nat) (t : Nat) :
    q.try_pop.2.q_.count t + q.try_pop.1.toList.count t = q.q_.count t := by
  rcases q with ⟨_ | ⟨a, l⟩⟩
  · rfl
  · simp only [WorkStealingQueue.try_pop, Option.toList, List.count_cons, List.count_nil]
    omega

theorem try_steal_count (q : WorkStealingQueue Nat) (t : Nat) :
    q.try_steal.2.q_.count t + q.try_steal.1.toList.count t = q.q_.count t := by
  cases q with
  | mk l =>
    rcases List.eq_nil_or_concat l with h | ⟨rest, x, h⟩
    · subst h; rfl
    · rw [h, List.concat_eq_append, try_steal_concat]
      simp only [Option.toList, List.count_append]

theorem pop_local_count (p : ThreadPool Nat) (tl : ThreadLocal) (t : Nat) :
    (p.pop_task_from_local_queue tl).2.pool_queue_ = p.pool_queue_ ∧
    (p.pop_task_from_local_queue tl).2.work_stealing_queue_.length
      = p.work_stealing_queue_.length ∧
    (localTasks (p.pop_task_from_local_queue tl).2.work_stealing_queue_).count t
      + (p.pop_task_from_local_queue tl).1.toList.count t
      = (localTasks p.work_stealing_queue_).count t := by
  unfold pop_task_from_local_queue
  cases tl.local_queue_ with
  | none => simp
  | some k =>
    simp only
    cases hk : p.work_stealing_queue_[k]? with
    | none => simp
    | some q =>
      have h1 := localTasks_set_count p.work_stealing_queue_ k q q.try_pop.2 t hk
      have h2 := try_pop_count q t
      simp only [List.length_set, true_and]
      omega

theorem steal_loop_count (index_ remaining i : Nat) (p : ThreadPool Nat) (t : Nat) :
    (steal_loop index_ remaining i p).2.pool_queue_ = p.pool_queue_ ∧
    (steal_loop index_ remaining i p).2.work_stealing_queue_.length
      = p.work_stealing_queue_.length ∧
    (localTasks (steal_loop index_ remaining i p).2.work_stealing_queue_).count t
      + (steal_loop index_ remaining i p).1.toList.count t
      = (localTasks p.work_stealing_queue_).count t := by
  induction remaining generalizing i p with
  | zero => simp [steal_loop]
  | succ n ih =>
    unfold steal_loop
    simp only
    cases hk : p.work_stealing_queue_[(index_ + i + 1) % p.work_stealing_queue_.length]? with
    | none => simp
    | some q =>
      have h1 := localTasks_set_count p.work_stealing_queue_ _ q q.try_steal.2 t hk
      have h2 := try_steal_count q t
      simp only
      cases hr : q.try_steal.1 with
      | some x =>
        rw [hr] at h2
        simp only [List.length_set, true_and]
        omega
      | none =>
        rw [hr] at h2
        have h0 : (none : Option Nat).toList.count t = 0 := rfl
        have h3 := ih (i + 1)
          ⟨p.done_, p.pool_queue_, p.work_stealing_queue_.set
            ((index_ + i + 1) % p.work_stealing_queue_.length) q.try_steal.2⟩
        simp only [List.length_set] at h3
        simp only
        refine ⟨h3.1, h3.2.1, ?_⟩
        omega

theorem pop_pool_count (p : ThreadPool Nat) (t : Nat) :
    p.pop_task_from_pool_queue.2.work_stealing_queue_ = p.work_stealing_queue_ ∧
    p.pop_task_from_pool_queue.2.pool_queue_.count t
      + p.pop_task_from_pool_queue.1.toList.count t
      = p.pool_queue_.count t := by
  rcases p with ⟨d, _ | ⟨a, l⟩, qs⟩
  · simp [pop_task_from_pool_queue]
  · simp only [pop_task_from_pool_queue, Option.toList, List.count_cons, List.count_nil,
      true_and]
    omega

theorem fresh_indicator (n t : Nat) :
    (if t < n + 1 then 1 else 0) = (if t < n then 1 else 0) + (if n = t then 1 else 0) := by
  split_ifs <;> omega

theorem conserved_init (n : Nat) : Conserved (PoolRun.init n) := by
  intro t
  have h1 : ∀ m : Nat, localTasks (List.replicate m (⟨[]⟩ : WorkStealingQueue Nat)) = [] := by
    intro m
    induction m with
    | zero => rfl
    | succ m ih => simp [List.replicate_succ, localTasks, ih]
  have h2 : ∀ m : Nat, heldTasks (List.replicate m (none : Option Nat)) = [] := by
    intro m
    induction m with
    | zero => rfl
    | succ m ih => simp [List.replicate_succ, heldTasks, ih]
  simp [PoolRun.init, PoolRun.queued, ThreadPool.new, h1, h2]

theorem conserved_fetch (s : PoolRun) (i : Nat) (r : Option Nat × ThreadPool Nat)
    (hs : Conserved s)
    (hr : ∀ t : Nat,
      r.2.pool_queue_.count t + (localTasks r.2.work_stealing_queue_).count t
        + r.1.toList.count t
      = s.pool.pool_queue_.count t + (localTasks s.pool.work_stealing_queue_).count t) :
    Conserved (s.fetch i r) := by
  unfold PoolRun.fetch
  split
  · next hi =>
    intro t
    have h1 := heldTasks_set_count s.task i none r.1 t hi
    have h0 : (none : Option Nat).toList.count t = 0 := rfl
    have h2 := hr t
    have h3 := hs t
    simp only [PoolRun.queued, List.count_append] at h3 ⊢
    omega
  · exact hs

theorem conserved_step (s : PoolRun) (a : Step) (hs : Conserved s) : Conserved (s.step a) := by
  cases a with
  | submit caller =>
    cases caller with
    | none =>
      intro t
      have h := hs t
      have e := fresh_indicator s.submitted t
      simp only [PoolRun.step, PoolRun.queued, submit, ThreadLocal.nonWorker,
        List.count_append, List.count_cons, List.count_nil, beq_iff_eq] at h ⊢
      omega
    | some i =>
      simp only [PoolRun.step]
      split
      · next hi =>
        intro t
        have h := hs t
        have hq := List.getElem?_eq_getElem hi
        have h1 := localTasks_set_count s.pool.work_stealing_queue_ i _
          ((s.pool.work_stealing_queue_[i]).push s.submitted) t hq
        have e := fresh_indicator s.submitted t
        simp only [PoolRun.queued, submit, ThreadLocal.worker, hq, List.count_append,
          WorkStealingQueue.push, List.count_cons, beq_iff_eq] at h h1 ⊢
        omega
      · exact hs
  | owner_pop i =>
    refine conserved_fetch s i _ hs (fun t => ?_)
    have h := pop_local_count s.pool (ThreadLocal.worker i) t
    rw [h.1]
    omega
  | steal i =>
    refine conserved_fetch s i _ hs (fun t => ?_)
    have h := steal_loop_count i s.pool.work_stealing_queue_.length 0 s.pool t
    unfold pop_task_from_other_thread_queue
    simp only [ThreadLocal.worker]
    rw [h.1]
    omega
  | global_pop i =>
    refine conserved_fetch s i _ hs (fun t => ?_)
    have h := pop_pool_count s.pool t
    rw [h.1]
    omega
  | execute i =>
    simp only [PoolRun.step]
    split
    · next x hi =>
      intro t
      have h1 := heldTasks_set_count s.task i (some x) none t hi
      have h3 := hs t
      simp only [PoolRun.queued, List.count_append, Option.toList, List.count_nil,
        List.count_cons] at h1 h3 ⊢
      omega
    · exact hs

theorem conserved_foldl (steps : List Step) (s : PoolRun) (hs : Conserved s) :
    Conserved (steps.foldl PoolRun.step s) := by
  induction steps generalizing s with
  | nil => exact hs
  | cons a steps ih => exact ih _ (conserved_step s a hs)

theorem conserved_run (n : Nat) (steps : List Step) : Conserved (PoolRun.run n steps) :=
  conserved_foldl steps _ (conserved_init n)

theorem fetch_busy (s : PoolRun) (i t : Nat) (r : Option Nat × ThreadPool Nat)
    (h : s.task[i]? = some (some t)) : s.fetch i r = s := by
  simp only [PoolRun.fetch, h]

theorem fetch_none (pool : ThreadPool Nat) (task : List (Option Nat)) (ex : List Nat)
    (sub i : Nat) (p : ThreadPool Nat) (h : task[i]? = some none) :
    PoolRun.fetch ⟨pool, task, ex, sub⟩ i (none, p) = ⟨p, task, ex, sub⟩ := by
  simp only [PoolRun.fetch, h, set_self_of_getElem? _ _ _ h]

theorem fetch_some (pool : ThreadPool Nat) (task : List (Option Nat)) (ex : List Nat)
    (sub i t : Nat) (p : ThreadPool Nat) (h : task[i]? = some none) :
    PoolRun.fetch ⟨pool, task, ex, sub⟩ i (some t, p)
      = ⟨p, task.set i (some t), ex, sub⟩ := by
  simp only [PoolRun.fetch, h]

theorem execute_held (pool : ThreadPool Nat) (task : List (Option Nat)) (ex : List Nat)
    (sub i t : Nat) (h : task[i]? = some none) :
    PoolRun.step ⟨pool, task.set i (some t), ex, sub⟩ (.execute i)
      = ⟨pool, task, ex ++ [t], sub⟩ := by
  have hlt : i < task.length := by
    by_contra hcon
    rw [List.getElem?_eq_none (by omega)] at h
    exact Option.noConfusion h
  have h1 : (task.set i (some t))[i]? = some (some t) := by
    simp [hlt]
  simp only [PoolRun.step, h1, List.set_set, set_self_of_getElem? _ _ _ h]

theorem execute_idle (s : PoolRun) (i : Nat) (h : s.task[i]? = some none) :
    s.step (.execute i) = s := by
  simp only [PoolRun.step, h]

/-- The four steps owner pop, steal, global pop, execute of a worker that holds no task are
together one pass of the loop of `worker_thread` (lines 129-140) with `task()` carried out. -/
theorem worker_pass_as_steps (s : PoolRun) (i : Nat) (h : s.task[i]? = some none) :
    [Step.owner_pop i, Step.steal i, Step.global_pop i, Step.execute i].foldl PoolRun.step s
      = { s with pool := (s.pool.worker_iteration (ThreadLocal.worker i)).2,
                 executed := s.executed
                   ++ (s.pool.worker_iteration (ThreadLocal.worker i)).1.toList } := by
  obtain ⟨pool, task, ex, sub⟩ := s
  simp only at h
  have hlt : i < task.length := by
    by_contra hcon
    rw [List.getElem?_eq_none (by omega)] at h
    exact Option.noConfusion h
  have hbusy : ∀ (t : Nat) (p : ThreadPool Nat),
      (PoolRun.mk p (task.set i (some t)) ex sub).task[i]? = some (some t) := by
    intro t p; simp [hlt]
  simp only [List.foldl_cons, List.foldl_nil, PoolRun.step.eq_3, PoolRun.step.eq_4,
    PoolRun.step.eq_5]
  unfold ThreadPool.worker_iteration
  rcases h1 : pool.pop_task_from_local_queue (ThreadLocal.worker i) with ⟨_ | t, p1⟩
  · rw [fetch_none pool task ex sub i p1 h]
    simp only
    rcases h2 : p1.pop_task_from_other_thread_queue (ThreadLocal.worker i) with ⟨_ | t, p2⟩
    · rw [fetch_none p1 task ex sub i p2 h]
      simp only
      rcases h3 : p2.pop_task_from_pool_queue with ⟨_ | t, p3⟩
      · rw [fetch_none p2 task ex sub i p3 h, execute_idle _ i h]
        simp
      · rw [fetch_some p2 task ex sub i t p3 h, execute_held p3 task ex sub i t h]
        simp
    · rw [fetch_some p1 task ex sub i t p2 h]
      simp only
      rw [fetch_busy _ i t _ (hbusy t p2), execute_held p2 task ex sub i t h]
      simp
  · rw [fetch_some pool task ex sub i t p1 h]
    simp only
    rw [fetch_busy _ i t _ (hbusy t p1), fetch_busy _ i t _ (hbusy t p1),
      execute_held p1 task ex sub i t h]
    simp

end StepLemmas

/-! ## Helper lemmas on futures -/

section FutureLemmas

variable {ε ρ α : Type}

open ThreadPool

theorem set_length_append {β : Type} (pre l : List β) (a b : β) :
    (pre ++ a :: l).set pre.length b = pre ++ b :: l := by
  induction pre with
  | nil => rfl
  | cons c pre ih => simp [ih]

theorem submitMany_eq (f : α → Except ε ρ) (xs : List α) (d : Bool)
    (q : List (PackagedTask ε ρ)) (qs : List (WorkStealingQueue (PackagedTask ε ρ)))
    (sh : List (Option (Except ε ρ))) :
    FuturePool.submitMany ⟨⟨d, q, qs⟩, sh⟩ f xs
      = (List.range' sh.length xs.length,
          ⟨⟨d, q ++ tasksFrom f sh.length xs, qs⟩, sh ++ List.replicate xs.length none⟩) := by
  induction xs generalizing q sh with
  | nil => simp [FuturePool.submitMany, tasksFrom]
  | cons x xs ih =>
    simp only [FuturePool.submitMany, FuturePool.submit, ThreadPool.submit,
      ThreadLocal.nonWorker, ih, List.length_append, List.length_singleton, List.length_cons,
      List.range'_succ, tasksFrom, List.append_assoc, List.singleton_append,
      List.replicate_succ, List.length_nil, Nat.zero_add]

theorem worker_loop_runs_pool_queue (tl : ThreadLocal)
    (q : List (PackagedTask ε ρ)) (qs : List (WorkStealingQueue (PackagedTask ε ρ)))
    (sh : List (Option (Except ε ρ))) (hl : ∀ w ∈ qs, w.q_ = []) :
    FuturePool.worker_loop tl q.length ⟨⟨false, q, qs⟩, sh⟩
      = ⟨⟨false, [], qs⟩, q.foldl (fun acc t => t.invoke acc) sh⟩ := by
  induction q generalizing sh with
  | nil => rfl
  | cons a q ih =>
    have hit : (⟨false, a :: q, qs⟩ : ThreadPool (PackagedTask ε ρ)).worker_iteration tl
        = (some a, ⟨false, q, qs⟩) := by
      rw [worker_iteration_of_all_empty _ tl hl]
      rfl
    simp only [List.length_cons, FuturePool.worker_loop, FuturePool.worker_iteration, hit,
      List.foldl_cons]
    exact ih (a.invoke sh)

theorem invoke_tasksFrom (f : α → Except ε ρ) (xs : List α)
    (pre : List (Option (Except ε ρ))) :
    (tasksFrom f pre.length xs).foldl (fun acc t => t.invoke acc)
        (pre ++ List.replicate xs.length none)
      = pre ++ xs.map (fun x => some (f x)) := by
  induction xs generalizing pre with
  | nil => simp [tasksFrom]
  | cons x xs ih =>
    have h := ih (pre ++ [some (f x)])
    simp only [List.length_append, List.length_singleton, List.append_assoc,
      List.singleton_append] at h
    simp only [tasksFrom, List.foldl_cons, PackagedTask.invoke, List.length_cons,
      List.replicate_succ, set_length_append, List.map_cons]
    exact h

theorem map_get_range {β : Type} (l : List β) (g : β → Option (Except ε ρ)) :
    (List.range' 0 l.length).map (fun k => ((l.map g)[k]?).join) = l.map g := by
  apply List.ext_getElem?
  intro k
  by_cases hk : k < l.length
  · simp [List.getElem?_map, List.getElem?_range', hk, List.getElem?_eq_getElem hk]
  · have hk2 : l.length ≤ k := Nat.le_of_not_lt hk
    simp [List.getElem?_map, List.getElem?_eq_none, hk2]

theorem submit_run_get (n : Nat) (tl : ThreadLocal) (f : α → Except ε ρ) (xs : List α) :
    ((FuturePool.new n : FuturePool ε ρ).submitMany f xs).1.map
        (FuturePool.worker_loop tl xs.length
          ((FuturePool.new n : FuturePool ε ρ).submitMany f xs).2).get
      = xs.map (fun x => some (f x)) := by
  have hl : ∀ w ∈ List.replicate n (⟨[]⟩ : WorkStealingQueue (PackagedTask ε ρ)), w.q_ = [] := by
    intro w hw
    rw [List.eq_of_mem_replicate hw]
  have hlen : (tasksFrom f 0 xs).length = xs.length := by
    have : ∀ k, (tasksFrom f k xs).length = xs.length := by
      induction xs with
      | nil => intro k; rfl
      | cons x xs ih => intro k; simp [tasksFrom, ih]
    exact this 0
  have h1 := submitMany_eq f xs false [] (List.replicate n ⟨[]⟩) ([] : List (Option (Except ε ρ)))
  simp only [List.length_nil, List.nil_append] at h1
  have h2 := worker_loop_runs_pool_queue tl (tasksFrom f 0 xs) (List.replicate n ⟨[]⟩)
    (List.replicate xs.length (none : Option (Except ε ρ))) hl
  rw [hlen] at h2
  have h3 := invoke_tasksFrom f xs ([] : List (Option (Except ε ρ)))
  simp only [List.length_nil, List.nil_append] at h3
  simp only [FuturePool.new, ThreadPool.new, h1, h2, h3]
  exact map_get_range xs (fun x => some (f x))

end FutureLemmas

/-! ## Claims on `ThreadPool` -/

section PoolClaims

variable {α : Type}

open ThreadPool

/-- C3: FIFO from the global queue. For a pool whose pool queue and local queues are all empty
and tasks `T1..Tn` submitted from a thread whose `local_queue_` is null, `n` successive calls
of `pop_task_from_pool_queue` all return `true` and yield `T1, ..., Tn` in submission order,
leaving the pool as it was before the submissions; and when `done_` is unset, a single worker
running `n` passes of its loop calls `task()` on exactly `T1, ..., Tn` in that order. -/
theorem C3_global_queue_fifo (p : ThreadPool α) (ts : List α)
    (hp : p.pool_queue_ = []) (hl : ∀ q ∈ p.work_stealing_queue_, q.q_ = []) :
    popPoolN ts.length (p.submitAll ThreadLocal.nonWorker ts) = (ts.map some, p) ∧
    (p.done_ = false → ∀ index : Nat,
      worker_thread ts.length index (p.submitAll ThreadLocal.nonWorker ts) = ⟨false, ts, p⟩) := by
  rw [submitAll_nonWorker, hp, List.nil_append]
  cases p with
  | mk d pq qs =>
    simp only at hp hl
    subst hp
    refine ⟨?_, fun hd index => ?_⟩
    · rw [popPoolN_all]
    · simp only at hd
      subst hd
      unfold worker_thread
      rw [worker_loop_drains_pool_queue _ qs ts [] hl]
      simp

/-- Witness for C3 on a pool of two workers and three tasks submitted from the main thread. -/
theorem C3_global_queue_fifo_witness :
    popPoolN 3 ((ThreadPool.new 2 : ThreadPool Nat).submitAll ThreadLocal.nonWorker [10, 20, 30])
      = ([some 10, some 20, some 30], ThreadPool.new 2) :=
  (C3_global_queue_fifo (ThreadPool.new 2 : ThreadPool Nat) [10, 20, 30] rfl (by decide)).1

/-- C4: submit routing. Called from worker `i` (thread-locals bound by `worker_thread(i)`,
`i < size()`), `submit` adds the task to queue `i` only: afterwards queue `i` holds the task at
its front followed by its old contents, and the pool queue, `done_`, the number of queues and
every queue `j ≠ i` are unchanged. Called from a thread whose `local_queue_` is null, `submit`
appends the task to the pool queue only: every local queue is unchanged. -/
theorem C4_submit_routing (p : ThreadPool α) (i : Nat) (t : α)
    (hi : i < p.work_stealing_queue_.length) :
    (p.submit (ThreadLocal.worker i) t).pool_queue_ = p.pool_queue_ ∧
    (p.submit (ThreadLocal.worker i) t).done_ = p.done_ ∧
    (p.submit (ThreadLocal.worker i) t).work_stealing_queue_.length
      = p.work_stealing_queue_.length ∧
    (p.submit (ThreadLocal.worker i) t).work_stealing_queue_[i]?
      = some ⟨t :: (p.work_stealing_queue_.get ⟨i, hi⟩).q_⟩ ∧
    (∀ j : Nat, j ≠ i →
      (p.submit (ThreadLocal.worker i) t).work_stealing_queue_[j]?
        = p.work_stealing_queue_[j]?) ∧
    (p.submit ThreadLocal.nonWorker t).pool_queue_ = p.pool_queue_ ++ [t] ∧
    (p.submit ThreadLocal.nonWorker t).work_stealing_queue_ = p.work_stealing_queue_ ∧
    (p.submit ThreadLocal.nonWorker t).done_ = p.done_ := by
  have hq : p.work_stealing_queue_[i]? = some (p.work_stealing_queue_.get ⟨i, hi⟩) := by
    simp [List.getElem?_eq_getElem hi]
  have hs : p.submit (ThreadLocal.worker i) t
      = { p with work_stealing_queue_ :=
            p.work_stealing_queue_.set i ((p.work_stealing_queue_.get ⟨i, hi⟩).push t) } := by
    simp only [submit, ThreadLocal.worker, hq]
  rw [hs]
  refine ⟨rfl, rfl, by simp, by simp [hi, WorkStealingQueue.push], fun j hj => ?_, rfl, rfl,
    rfl⟩
  simp [List.getElem?_set, Ne.symm hj]

/-- Witness for C4: worker 0 of a two-worker pool whose queue 0 holds task 5 submits task 7;
queue 0 then holds 7 in front of 5. -/
theorem C4_submit_routing_witness :
    ((⟨false, [], [⟨[5]⟩, ⟨[]⟩]⟩ : ThreadPool Nat).submit
        (ThreadLocal.worker 0) 7).work_stealing_queue_[0]?
      = some ⟨[7, 5]⟩ :=
  (C4_submit_routing (⟨false, [], [⟨[5]⟩, ⟨[]⟩]⟩ : ThreadPool Nat) 0 7 (by decide)).2.2.2.1

/-- C9: round-robin steal order. In a pool of `N` local queues, for a worker `i < N` such
that some queue other than `i` is non-empty (which makes `N >= 2`),
`pop_task_from_other_thread_queue` returns `true` with the least recently pushed task `t` of the
queue at `(i + k) mod N`, where `k` is the first offset in `1, ..., N - 1` whose queue is
non-empty (all queues at earlier offsets are empty); that queue, which is not queue `i`, loses
exactly `t` and nothing else in the pool changes. -/
theorem C9_round_robin_steal_order (p : ThreadPool α) (i : Nat)
    (hi : i < p.work_stealing_queue_.length)
    (hne : ∃ (j : Nat) (q : WorkStealingQueue α),
      j ≠ i ∧ p.work_stealing_queue_[j]? = some q ∧ q.q_ ≠ []) :
    2 ≤ p.work_stealing_queue_.length ∧
    ∃ (k : Nat) (rest : List α) (t : α),
      1 ≤ k ∧ k < p.work_stealing_queue_.length ∧
      (i + k) % p.work_stealing_queue_.length ≠ i ∧
      (∀ m, 1 ≤ m → m < k →
        p.work_stealing_queue_[(i + m) % p.work_stealing_queue_.length]? = some ⟨[]⟩) ∧
      p.work_stealing_queue_[(i + k) % p.work_stealing_queue_.length]? = some ⟨rest ++ [t]⟩ ∧
      p.pop_task_from_other_thread_queue (ThreadLocal.worker i)
        = (some t, ⟨p.done_, p.pool_queue_,
            p.work_stealing_queue_.set ((i + k) % p.work_stealing_queue_.length) ⟨rest⟩⟩) := by
  obtain ⟨k, rest, t, hk1, hkN, hrest⟩ := steal_first_nonempty p i hi hne
  exact ⟨by omega, k, rest, t, hk1, hkN, hrest⟩

/-- Witness for C9: three queues `[1, 2]`, `[9]`, `[]` (front first); worker 1 finds queue 2
empty and steals task 2, the oldest of queue 0. -/
theorem C9_round_robin_steal_order_witness :
    ((⟨false, [], [⟨[1, 2]⟩, ⟨[9]⟩, ⟨[]⟩]⟩ : ThreadPool Nat).pop_task_from_other_thread_queue
        (ThreadLocal.worker 1)).1 ≠ none := by
  obtain ⟨_, k, rest, t, _, _, _, _, _, h⟩ :=
    C9_round_robin_steal_order (⟨false, [], [⟨[1, 2]⟩, ⟨[9]⟩, ⟨[]⟩]⟩ : ThreadPool Nat) 1
      (by decide) ⟨0, ⟨[1, 2]⟩, by decide, rfl, by decide⟩
  rw [h]
  exact Option.some_ne_none t

/-- C5: worker pull priority. One pass of worker `i`'s loop with `done_` unset:
(1) if queue `i` holds `t :: rest` (front first), `task()` is called on `t`, the most recently
pushed task, and only queue `i` changes; (2) if queue `i` is empty and some local queue is not,
the task run is the oldest task of another local queue `j`, only queue `j` changes and the pool
queue is untouched; (3) if every local queue is empty the front of the pool queue is run, and
a pass that changes the pool queue always started with every local queue empty; (4) if every
queue is empty no task is run and nothing changes. -/
theorem C5_worker_pull_priority (p : ThreadPool α) (i : Nat)
    (hd : p.done_ = false) (hi : i < p.work_stealing_queue_.length) :
    (∀ (t : α) (rest : List α), p.work_stealing_queue_[i]? = some ⟨t :: rest⟩ →
      worker_thread 1 i p
        = ⟨false, [t], ⟨p.done_, p.pool_queue_, p.work_stealing_queue_.set i ⟨rest⟩⟩⟩) ∧
    (p.work_stealing_queue_[i]? = some ⟨[]⟩ →
      (∃ (j : Nat) (q : WorkStealingQueue α),
        p.work_stealing_queue_[j]? = some q ∧ q.q_ ≠ []) →
      ∃ (j : Nat) (rest : List α) (t : α),
        j ≠ i ∧ p.work_stealing_queue_[j]? = some ⟨rest ++ [t]⟩ ∧
        worker_thread 1 i p
          = ⟨false, [t], ⟨p.done_, p.pool_queue_, p.work_stealing_queue_.set j ⟨rest⟩⟩⟩) ∧
    (∀ (t : α) (rest : List α), (∀ q ∈ p.work_stealing_queue_, q.q_ = []) →
      p.pool_queue_ = t :: rest →
      worker_thread 1 i p = ⟨false, [t], ⟨p.done_, rest, p.work_stealing_queue_⟩⟩) ∧
    ((worker_thread 1 i p).pool.pool_queue_ ≠ p.pool_queue_ →
      ∀ q ∈ p.work_stealing_queue_, q.q_ = []) ∧
    ((∀ q ∈ p.work_stealing_queue_, q.q_ = []) → p.pool_queue_ = [] →
      worker_thread 1 i p = ⟨false, [], p⟩) := by
  rw [worker_thread_one p i hd]
  refine ⟨fun t rest h => ?_, fun h hne => ?_, fun t rest hl hq => ?_, fun hch => ?_,
    fun hl hq => ?_⟩
  · rw [worker_iteration_local p i t rest h]
    rfl
  · obtain ⟨j, rest, t, hji, hj, hw⟩ := worker_iteration_steal p i hi h hne
    exact ⟨j, rest, t, hji, hj, by rw [hw]; rfl⟩
  · rw [worker_iteration_of_all_empty p _ hl]
    simp only [pop_task_from_pool_queue, hq, Option.toList]
  · exact worker_iteration_pool_only_if p i hi hch
  · rw [worker_iteration_of_all_empty p _ hl]
    simp only [pop_task_from_pool_queue, hq, Option.toList]

/-- Witness for C5: queue 0 holds `[3, 4]` (3 pushed last), queue 1 holds `[5]`, the pool queue
holds `[6]`; worker 0 runs task 3. -/
theorem C5_worker_pull_priority_witness :
    worker_thread 1 0 (⟨false, [6], [⟨[3, 4]⟩, ⟨[5]⟩]⟩ : ThreadPool Nat)
      = ⟨false, [3], ⟨false, [6], [⟨[4]⟩, ⟨[5]⟩]⟩⟩ :=
  (C5_worker_pull_priority (⟨false, [6], [⟨[3, 4]⟩, ⟨[5]⟩]⟩ : ThreadPool Nat) 0 rfl
    (by decide)).1 3 [4] rfl

/-- C8: stop on shutdown, no drain. Whenever a worker evaluates its loop condition with `done_`
set, whatever the queues hold and whatever it has run before, it leaves the loop without a pop,
a steal or a call of `task()`, and the pool is unchanged. Hence a task submitted from the main
thread, or from a worker into its own queue, before the destructor sets `done_` is still queued
and was never run when the worker has exited. -/
theorem C8_stop_on_shutdown (α : Type) :
    (∀ (pool_queue_ : List α) (work_stealing_queue_ : List (WorkStealingQueue α))
        (tl : ThreadLocal) (fuel : Nat) (executed : List α),
      worker_loop tl (fuel + 1) ⟨true, pool_queue_, work_stealing_queue_⟩ executed
        = ⟨true, executed, ⟨true, pool_queue_, work_stealing_queue_⟩⟩) ∧
    (∀ (p : ThreadPool α) (fuel index : Nat),
      worker_thread (fuel + 1) index p.shutdown = ⟨true, [], p.shutdown⟩) ∧
    (∀ (t : α) (fuel : Nat),
      worker_thread (fuel + 1) 0 ((ThreadPool.new 2).submit ThreadLocal.nonWorker t).shutdown
        = ⟨true, [], ⟨true, [t], [⟨[]⟩, ⟨[]⟩]⟩⟩) ∧
    (∀ (t : α) (fuel : Nat),
      worker_thread (fuel + 1) 1 ((ThreadPool.new 2).submit (ThreadLocal.worker 1) t).shutdown
        = ⟨true, [], ⟨true, [], [⟨[]⟩, ⟨[t]⟩]⟩⟩) := by
  refine ⟨fun pq qs tl fuel executed => ?_, fun p fuel index => ?_, fun t fuel => ?_,
    fun t fuel => ?_⟩ <;> simp [worker_thread, worker_loop, shutdown, ThreadPool.new, submit,
      ThreadLocal.nonWorker, ThreadLocal.worker, WorkStealingQueue.push]

/-- C6, as stated, fails: after one `submit` from the main thread and one global pop by
worker 0 of a one-worker pool, task 0 has been submitted, sits in no queue and has not been
executed either: worker 0 holds it and has not yet called `task()`. -/
theorem C6_counterexample :
    0 < (PoolRun.run 1 [.submit none, .global_pop 0]).submitted ∧
    ¬ (((PoolRun.run 1 [.submit none, .global_pop 0]).queued.count 0 = 1 ∧
          (PoolRun.run 1 [.submit none, .global_pop 0]).executed.count 0 = 0) ∨
        ((PoolRun.run 1 [.submit none, .global_pop 0]).queued.count 0 = 0 ∧
          (PoolRun.run 1 [.submit none, .global_pop 0]).executed.count 0 = 1)) := by
  decide

/-- C6, amended: in every state reachable by the steps submit, owner pop, steal, global pop
and execute, each submitted task is in exactly one of three places: at exactly one position of
exactly one queue and not executed; or in no queue, held by exactly one worker between its pop
and its call `task()`, and not executed; or in no queue, held by no worker and executed exactly
once. In every reachable state in which no worker holds a task, each submitted task is either at
exactly one queue position and not executed, or in no queue and executed exactly once. -/
theorem C6_no_lost_or_duplicate_execution (n : Nat) (steps : List Step) (t : Nat)
    (ht : t < (PoolRun.run n steps).submitted) :
    (((PoolRun.run n steps).queued.count t = 1 ∧
        (heldTasks (PoolRun.run n steps).task).count t = 0 ∧
        (PoolRun.run n steps).executed.count t = 0) ∨
      ((PoolRun.run n steps).queued.count t = 0 ∧
        (heldTasks (PoolRun.run n steps).task).count t = 1 ∧
        (PoolRun.run n steps).executed.count t = 0) ∨
      ((PoolRun.run n steps).queued.count t = 0 ∧
        (heldTasks (PoolRun.run n steps).task).count t = 0 ∧
        (PoolRun.run n steps).executed.count t = 1)) ∧
    (heldTasks (PoolRun.run n steps).task = [] →
      ((PoolRun.run n steps).queued.count t = 1 ∧
          (PoolRun.run n steps).executed.count t = 0) ∨
        ((PoolRun.run n steps).queued.count t = 0 ∧
          (PoolRun.run n steps).executed.count t = 1)) := by
  have h := conserved_run n steps t
  rw [if_pos ht] at h
  refine ⟨by omega, fun hheld => ?_⟩
  rw [hheld, List.count_nil] at h
  omega

/-- Witness for C6 (amended): two workers; task 0 is submitted from the main thread, task 1 by
worker 1 into its own queue; worker 0 steals task 1 and runs it; task 1 was submitted. -/
theorem C6_no_lost_or_duplicate_execution_witness :
    (PoolRun.run 2 [.submit none, .submit (some 1), .owner_pop 0, .steal 0, .execute 0]).executed
        = [1] ∧
      (PoolRun.run 2
          [.submit none, .submit (some 1), .owner_pop 0, .steal 0, .execute 0]).executed.count 1
        = 1 := by
  refine ⟨by decide, ?_⟩
  have h := (C6_no_lost_or_duplicate_execution 2
    [.submit none, .submit (some 1), .owner_pop 0, .steal 0, .execute 0] 1 (by decide)).2
    (by decide)
  rcases h with ⟨h1, _⟩ | ⟨_, h2⟩
  · exact absurd h1 (by decide)
  · exact h2

/-- C7: result correctness. (1) `submit(f, x)` returns a future on a fresh, still unset shared
state and queues exactly the task that wraps the call `f(x)` for that state. (2) Running a
task stores the outcome of its call, value or failure, in its own shared state and leaves every
other shared state alone. (3) A task submitted by worker `i` and run by worker `i`'s next pass
of the loop makes the future yield exactly `f(x)`; when `f(x)` fails this is the captured
failure, and the pass completes like any other. (4) For arguments `xs` submitted in order from a
thread that is not a worker into a fresh pool, once a worker has made as many passes as there are
tasks, the futures in submission order yield `f(x)` for the `x` of `xs` in order. -/
theorem C7_result_correctness (ε ρ α : Type) :
    (∀ (s : FuturePool ε ρ) (tl : ThreadLocal) (f : α → Except ε ρ) (x : α),
      (s.submit tl f x).1 = s.shared.length ∧
      (s.submit tl f x).2.get (s.submit tl f x).1 = none ∧
      (s.submit tl f x).2.pool = s.pool.submit tl ⟨fun _ => f x, (s.submit tl f x).1⟩) ∧
    (∀ (t : PackagedTask ε ρ) (shared : List (Option (Except ε ρ))),
      t.state < shared.length →
      ((t.invoke shared)[t.state]?).join = some (t.body ()) ∧
      ∀ h : Nat, h ≠ t.state → (t.invoke shared)[h]? = shared[h]?) ∧
    (∀ (s : FuturePool ε ρ) (i : Nat) (f : α → Except ε ρ) (x : α),
      i < s.pool.work_stealing_queue_.length →
      ((s.submit (ThreadLocal.worker i) f x).2.worker_iteration (ThreadLocal.worker i)).get
          (s.submit (ThreadLocal.worker i) f x).1 = some (f x) ∧
      ((s.submit (ThreadLocal.worker i) f x).2.worker_iteration (ThreadLocal.worker i)).pool
        = s.pool) ∧
    (∀ (n : Nat) (tl : ThreadLocal) (f : α → Except ε ρ) (xs : List α),
      ((FuturePool.new n : FuturePool ε ρ).submitMany f xs).1.map
          (FuturePool.worker_loop tl xs.length
            ((FuturePool.new n : FuturePool ε ρ).submitMany f xs).2).get
        = xs.map (fun x => some (f x))) := by
  refine ⟨fun s tl f x => ⟨rfl, ?_, rfl⟩, fun t shared ht => ⟨?_, fun h hh => ?_⟩,
    fun s i f x hi => ?_, submit_run_get⟩
  · simp [FuturePool.submit, FuturePool.get]
  · simp [PackagedTask.invoke, ht]
  · simp [PackagedTask.invoke, List.getElem?_set, Ne.symm hh]
  · have hq := List.getElem?_eq_getElem hi
    have hs : (s.submit (ThreadLocal.worker i) f x).2.pool
        = ⟨s.pool.done_, s.pool.pool_queue_,
            s.pool.work_stealing_queue_.set i
              ⟨⟨fun _ => f x, s.shared.length⟩ :: (s.pool.work_stealing_queue_[i]).q_⟩⟩ := by
      simp only [FuturePool.submit, ThreadPool.submit, ThreadLocal.worker, hq,
        WorkStealingQueue.push]
    have hit := worker_iteration_local (s.submit (ThreadLocal.worker i) f x).2.pool i
      ⟨fun _ => f x, s.shared.length⟩ (s.pool.work_stealing_queue_[i]).q_
      (by rw [hs]; simp [hi])
    have hback : (s.pool.work_stealing_queue_.set i
        ⟨⟨fun _ => f x, s.shared.length⟩ :: (s.pool.work_stealing_queue_[i]).q_⟩).set i
          ⟨(s.pool.work_stealing_queue_[i]).q_⟩ = s.pool.work_stealing_queue_ := by
      rw [List.set_set]
      exact set_self_of_getElem? _ _ _ hq
    simp only [FuturePool.worker_iteration, hit]
    constructor
    · simp [FuturePool.get, FuturePool.submit, PackagedTask.invoke]
    · rw [hs]
      simp only [hback]

/-- Witness for C7: the loop of `main`, the identity bound to `0..9` and submitted from the
main thread to a pool of four workers; after ten passes of worker 2 the futures yield `0..9` in
submission order. -/
theorem C7_result_correctness_witness :
    ((FuturePool.new 4 : FuturePool Unit Nat).submitMany (fun y : Nat => Except.ok y)
        [0, 1, 2, 3, 4, 5, 6, 7, 8, 9]).1.map
      (FuturePool.worker_loop (ThreadLocal.worker 2) 10
        ((FuturePool.new 4 : FuturePool Unit Nat).submitMany (fun y : Nat => Except.ok y)
          [0, 1, 2, 3, 4, 5, 6, 7, 8, 9]).2).get
      = [some (.ok 0), some (.ok 1), some (.ok 2), some (.ok 3), some (.ok 4), some (.ok 5),
          some (.ok 6), some (.ok 7), some (.ok 8), some (.ok 9)] :=
  (C7_result_correctness Unit Nat Nat).2.2.2 4 (ThreadLocal.worker 2)
    (fun y : Nat => Except.ok y) [0, 1, 2, 3, 4, 5, 6, 7, 8, 9]

end PoolClaims

end ThreadPoolV3
